import Mathlib

/- Shallow embedding of the cQueue library (src/src/cQueue.h, with the
   cQueue.c v1.0 implementation appended in the same source file): a
   fixed-capacity ring of equal-sized records with FIFO/LIFO behaviour.

   Modelling choices:
   * the malloc-ed byte region `q->queue` is modelled as a total function
     `Nat → Nat` from byte index to byte value; `memcpy` in/out becomes
     `writeBytesN` / `readBytes`;
   * `uint16_t` arithmetic that can wrap is modelled with an explicit
     `% 65536` (the `cnt++` in `q_push` and the `end-1` of `DEC_IDX`);
   * an operation's boolean return and its output record (written through
     the caller's pointer in C) are returned as components of a tuple;
   * `malloc`'s result is an explicit `Option` argument of `q_init`
     (`none` models a NULL return). -/

/-- `FIFO = 0` from `enum enumQueueType`. -/
def FIFO : Nat := 0

/-- `LIFO = 1` from `enum enumQueueType`. -/
def LIFO : Nat := 1

/-- `QUEUE_INITIALIZED` control value `0x5AA5`. -/
def QUEUE_INITIALIZED : Nat := 0x5AA5

/-- The C struct `Queue_t`.  The field `in` is a Lean keyword and is named
`in_` here; all other field names are the source's. -/
@[ext] structure Queue_t where
  impl : Nat
  ovw : Bool
  rec_nb : Nat
  rec_sz : Nat
  queue_sz : Nat
  queue : Nat → Nat
  in_ : Nat
  out : Nat
  cnt : Nat
  init : Nat

/-- `memcpy(buf + off, src, len)`: overwrite `len` bytes starting at byte
offset `off` with the bytes of `src` (a byte of `src` past its end reads
as 0; the C original would read out of bounds there, which no claim
exercises). -/
def writeBytesN (buf : Nat → Nat) (off len : Nat) (src : List Nat) : Nat → Nat :=
  fun i => if off ≤ i ∧ i < off + len then src.getD (i - off) 0 else buf i

/-- `memcpy(dst, buf + off, len)`: read `len` bytes starting at byte
offset `off`. -/
def readBytes (buf : Nat → Nat) (off len : Nat) : List Nat :=
  (List.range len).map fun i => buf (off + i)

/-- The `INC_IDX(ctr, end, start)` macro: increment rolling back to
`start` when `end` is reached.  (`ctr < end - 1` is computed in `int`;
for `end = 0` the comparison `ctr < -1` is false, which coincides with
the `Nat` subtraction `0 - 1 = 0` used here.) -/
def inc_idx (ctr stop start : Nat) : Nat :=
  if ctr < stop - 1 then ctr + 1 else start

/-- The `DEC_IDX(ctr, end, start)` macro: decrement rolling back to
`end - 1` when `start` is reached.  `end - 1` is computed in `int` and
stored into a `uint16_t` field, hence the `% 65536` wrap (relevant only
for `end = 0`). -/
def dec_idx (ctr stop start : Nat) : Nat :=
  if ctr > start then ctr - 1 else (stop + 65535) % 65536

/-- `q_isInitialized`: `(q->init == QUEUE_INITIALIZED) ? true : false`. -/
def q_isInitialized (q : Queue_t) : Bool :=
  if q.init == QUEUE_INITIALIZED then true else false

/-- `q_isEmpty`: `(!q->cnt) ? true : false`. -/
def q_isEmpty (q : Queue_t) : Bool :=
  if q.cnt == 0 then true else false

/-- `q_isFull`: `(q->cnt == q->rec_nb) ? true : false`. -/
def q_isFull (q : Queue_t) : Bool :=
  if q.cnt == q.rec_nb then true else false

/-- `q_sizeof`: returns the `queue_sz` field. -/
def q_sizeof (q : Queue_t) : Nat := q.queue_sz

/-- `q_getCount`: returns the `cnt` field. -/
def q_getCount (q : Queue_t) : Nat := q.cnt

/-- `q_getRemainingCount`: `q->rec_nb - q->cnt`, a `uint16_t` result. -/
def q_getRemainingCount (q : Queue_t) : Nat :=
  (q.rec_nb + 65536 - q.cnt) % 65536

/-- `q_kill`: `free(q->queue)`.  It assigns no struct field at all — in
particular it clears neither `queue` nor `init` — so on the struct state
it is the identity. -/
def q_kill (q : Queue_t) : Queue_t := q

/-- `q_clean` in cQueue.c; the header's `#define q_clean q_flush` makes
this the definition of `q_flush`.  Resets `in`, `out` and `cnt` to 0 and
touches nothing else. -/
def q_flush (q : Queue_t) : Queue_t :=
  { q with in_ := 0, out := 0, cnt := 0 }

/-- The deprecated alias `q_clean` for `q_flush`. -/
def q_clean : Queue_t → Queue_t := q_flush

/-- `q_init(q, size_rec, nb_recs, type, overwrite)`.  The result of
`malloc(nb_recs * size_rec)` is passed as `alloc` (`none` models a NULL
return).  Faithful to the source: it assigns `rec_nb`, `rec_sz`, `impl`,
`ovw`, frees the previous storage when `init == QUEUE_INITIALIZED`,
stores the allocation result, sets `init` to `QUEUE_INITIALIZED`
WITHOUT checking the allocation result, never assigns `queue_sz`, and
finally calls `q_clean`. -/
def q_init (q : Queue_t) (size_rec nb_recs ty : Nat) (overwrite : Bool)
    (alloc : Option (Nat → Nat)) : Queue_t :=
  let q1 : Queue_t :=
    { q with rec_nb := nb_recs, rec_sz := size_rec, impl := ty, ovw := overwrite }
  let q2 : Queue_t := if q1.init == QUEUE_INITIALIZED then q_kill q1 else q1
  let q3 : Queue_t := { q2 with queue := alloc.getD (fun _ => 0) }
  let q4 : Queue_t := { q3 with init := QUEUE_INITIALIZED }
  q_clean q4

/-- `q_push(q, record)`: reject when full with overwrite disabled;
otherwise `memcpy` the record to slot `in`, `INC_IDX` the `in` cursor,
then either count the new record (`cnt++`, a `uint16_t` increment) or —
full with overwrite allowed — advance `out` in FIFO mode only. -/
def q_push (q : Queue_t) (record : List Nat) : Bool × Queue_t :=
  if !q.ovw && q_isFull q then (false, q)
  else
    let q1 : Queue_t :=
      { q with queue := writeBytesN q.queue (q.rec_sz * q.in_) q.rec_sz record }
    let q2 : Queue_t := { q1 with in_ := inc_idx q1.in_ q1.rec_nb 0 }
    if !q_isFull q2 then (true, { q2 with cnt := (q2.cnt + 1) % 65536 })
    else if q2.ovw then
      if q2.impl == FIFO then (true, { q2 with out := inc_idx q2.out q2.rec_nb 0 })
      else (true, q2)
    else (true, q2)

/-- `q_pop(q, record)`: returns (status, bytes copied out, new state).
FIFO reads slot `out` then `INC_IDX`s `out`; LIFO first `DEC_IDX`s `in`
then reads the new slot `in`; either way `cnt--`.  An `impl` value that
is neither FIFO nor LIFO falls through to `return false`. -/
def q_pop (q : Queue_t) : Bool × Option (List Nat) × Queue_t :=
  if q_isEmpty q then (false, none, q)
  else if q.impl == FIFO then
    (true, some (readBytes q.queue (q.rec_sz * q.out) q.rec_sz),
      { q with out := inc_idx q.out q.rec_nb 0, cnt := q.cnt - 1 })
  else if q.impl == LIFO then
    let newIn := dec_idx q.in_ q.rec_nb 0
    (true, some (readBytes q.queue (q.rec_sz * newIn) q.rec_sz),
      { q with in_ := newIn, cnt := q.cnt - 1 })
  else (false, none, q)

/-- `q_peek(q, record)`: same slot selection as `q_pop` but no cursor or
count is written back (the LIFO case decrements a local copy of `in`). -/
def q_peek (q : Queue_t) : Bool × Option (List Nat) × Queue_t :=
  if q_isEmpty q then (false, none, q)
  else if q.impl == FIFO then
    (true, some (readBytes q.queue (q.rec_sz * q.out) q.rec_sz), q)
  else if q.impl == LIFO then
    let rec_ := dec_idx q.in_ q.rec_nb 0
    (true, some (readBytes q.queue (q.rec_sz * rec_) q.rec_sz), q)
  else (false, none, q)

/-- `q_drop(q)`: same cursor movement and `cnt--` as `q_pop` but copies
nothing out. -/
def q_drop (q : Queue_t) : Bool × Queue_t :=
  if q_isEmpty q then (false, q)
  else if q.impl == FIFO then
    (true, { q with out := inc_idx q.out q.rec_nb 0, cnt := q.cnt - 1 })
  else if q.impl == LIFO then
    (true, { q with in_ := dec_idx q.in_ q.rec_nb 0, cnt := q.cnt - 1 })
  else (false, q)

/-- Push a list of records in order (ignoring the boolean results). -/
def pushAll (q : Queue_t) (recs : List (List Nat)) : Queue_t :=
  recs.foldl (fun s r => (q_push s r).2) q

/-- Pop `n` times, collecting each call's copied-out bytes in order. -/
def popN : Queue_t → Nat → List (Option (List Nat)) × Queue_t
  | q, 0 => ([], q)
  | q, n + 1 =>
    let r := q_pop q
    let rest := popN r.2.2 n
    (r.2.1 :: rest.1, rest.2)

/-- Write the records of `recs` into consecutive slots `j, j+1, …` of a
byte region (slot `k` is bytes `[sz*k, sz*k + sz)`); the functional
residue of a run of successful pushes. -/
def storeSeq (buf : Nat → Nat) (sz j : Nat) : List (List Nat) → Nat → Nat
  | [] => buf
  | r :: rs => storeSeq (writeBytesN buf (sz * j) sz r) sz (j + 1) rs

/-- States reachable from a `q_init` call with a positive capacity
(`nb_recs` is a `uint16_t` parameter in C, hence `nb_recs < 65536`) by
the queue operations. -/
inductive Reachable : Queue_t → Prop
  | init : ∀ q size_rec nb_recs ty overwrite alloc, 0 < nb_recs → nb_recs < 65536 →
      Reachable (q_init q size_rec nb_recs ty overwrite alloc)
  | push : ∀ q r, Reachable q → Reachable (q_push q r).2
  | pop : ∀ q, Reachable q → Reachable (q_pop q).2.2
  | peek : ∀ q, Reachable q → Reachable (q_peek q).2.2
  | drop : ∀ q, Reachable q → Reachable (q_drop q).2
  | flush : ∀ q, Reachable q → Reachable (q_flush q)

/-- An all-zero struct to initialize from (a fresh `Queue_t` variable). -/
def baseQ : Queue_t :=
  ⟨0, false, 0, 0, 0, fun _ => 0, 0, 0, 0, 0⟩

/-- A ready full FIFO ring with overwrite disabled (capacity 1, one
1-byte record `[5]` stored). -/
def fullQ : Queue_t :=
  ⟨FIFO, false, 1, 1, 1, fun _ => 5, 0, 0, 1, QUEUE_INITIALIZED⟩

/-- A ready empty FIFO ring (capacity 2, record size 1). -/
def emptyQ : Queue_t :=
  ⟨FIFO, false, 2, 1, 2, fun _ => 0, 0, 0, 0, QUEUE_INITIALIZED⟩

/-- A ready full FIFO ring with overwrite enabled, capacity 2, record
size 1, slots holding bytes 1 (oldest, slot 0) and 2 (second-oldest,
slot 1), `in = out = 0`. -/
def ovwQ : Queue_t :=
  ⟨FIFO, true, 2, 1, 2, fun i => if i == 0 then 1 else 2, 0, 0, 2, QUEUE_INITIALIZED⟩

/-- A ready NON-empty FIFO ring already holding one record (byte 7 in
slot 0), `in = 1`, `out = 0`: a "ready ring" on which the literal C1
round-trip statement fails. -/
def c1CtrQ : Queue_t :=
  ⟨FIFO, false, 2, 1, 2, fun _ => 7, 1, 0, 1, QUEUE_INITIALIZED⟩

/-- A ready empty FIFO ring, capacity 3, record size 2. -/
def rtQ : Queue_t :=
  ⟨FIFO, false, 3, 2, 6, fun _ => 0, 0, 0, 0, QUEUE_INITIALIZED⟩

/-- The same ring in LIFO mode. -/
def rtQL : Queue_t :=
  ⟨LIFO, false, 3, 2, 6, fun _ => 0, 0, 0, 0, QUEUE_INITIALIZED⟩

/-- A NOT-ready (`init = 0`) ring nonetheless holding one record, used
to exercise the absent `NotInitialized` check. -/
def notReadyQ : Queue_t :=
  ⟨FIFO, false, 2, 1, 2, fun _ => 7, 1, 0, 1, 0⟩

/-- A ready non-empty ring whose `impl` field holds 2, neither FIFO nor
LIFO. -/
def badModeQ : Queue_t :=
  ⟨2, false, 2, 1, 2, fun _ => 7, 1, 0, 1, QUEUE_INITIALIZED⟩

/-- A struct whose stale `queue_sz` field holds 7 before `q_init`. -/
def staleSzQ : Queue_t :=
  ⟨0, false, 0, 0, 7, fun _ => 0, 0, 0, 0, 0⟩

/-- Helper: `q_peek` returns its argument as the post-state in every
branch of the source. -/
theorem q_peek_state (q : Queue_t) : (q_peek q).2.2 = q := by
  unfold q_peek
  split
  · rfl
  · split
    · rfl
    · split
      · rfl
      · rfl

/-- Helper: reading a byte range disjoint from the written range sees
the old contents. -/
theorem readBytes_writeBytesN_of_disjoint (buf : Nat → Nat) (off len : Nat)
    (src : List Nat) (off' len' : Nat)
    (h : off' + len' ≤ off ∨ off + len ≤ off') :
    readBytes (writeBytesN buf off len src) off' len' = readBytes buf off' len' := by
  unfold readBytes writeBytesN
  refine List.map_congr_left ?_
  intro i hi
  rw [List.mem_range] at hi
  have : ¬(off ≤ off' + i ∧ off' + i < off + len) := by omega
  rw [if_neg this]

/-- C2: a failing operation leaves the whole state (count, cursors and
storage included) unchanged: `q_push` on a full ring with overwrite
disabled returns `false` with the state untouched, and `q_pop`,
`q_peek`, `q_drop` on an empty ring return `false` with the state
untouched.  (The C functions signal `Full`/`Empty` by returning
`false`.)  Proven for every ring, ready or not. -/
theorem c2_failed_ops_frame (q : Queue_t) (r : List Nat) :
    (q.ovw = false → q_isFull q = true → q_push q r = (false, q)) ∧
    (q_isEmpty q = true →
      q_pop q = (false, none, q) ∧ q_peek q = (false, none, q) ∧
      q_drop q = (false, q)) := by
  constructor
  · intro hovw hfull
    simp [q_push, hovw, hfull]
  · intro hemp
    refine ⟨?_, ?_, ?_⟩ <;> simp [q_pop, q_peek, q_drop, hemp]

/-- Witness for C2 at a concrete full ring and a concrete empty ring. -/
theorem c2_failed_ops_frame_witness :
    (fullQ.ovw = false ∧ q_isFull fullQ = true ∧ q_push fullQ [9] = (false, fullQ)) ∧
    (q_isEmpty emptyQ = true ∧ q_pop emptyQ = (false, none, emptyQ) ∧
      q_peek emptyQ = (false, none, emptyQ) ∧ q_drop emptyQ = (false, emptyQ)) :=
  ⟨⟨rfl, rfl, (c2_failed_ops_frame fullQ [9]).1 rfl rfl⟩,
    ⟨rfl, (c2_failed_ops_frame emptyQ []).2 rfl⟩⟩

/-- C4: `q_peek` mutates none of `in`, `out`, `cnt` or the storage (it
returns the state unchanged), and two consecutive peeks with no
intervening operation return identical bytes, whatever the mode.
Proven for every ring, ready or not. -/
theorem c4_peek_pure (q : Queue_t) :
    (q_peek q).2.2 = q ∧ (q_peek ((q_peek q).2.2)).2.1 = (q_peek q).2.1 := by
  have h := q_peek_state q
  exact ⟨h, by rw [h]⟩

/-- C5: `q_flush` (the `q_clean` of cQueue.c) zeroes `in`, `out`, `cnt`
and leaves `rec_nb`, `rec_sz`, `impl`, `ovw`, `init`, the storage and
`queue_sz` unchanged. -/
theorem c5_flush_resets (q : Queue_t) :
    (q_flush q).in_ = 0 ∧ (q_flush q).out = 0 ∧ (q_flush q).cnt = 0 ∧
    (q_flush q).rec_nb = q.rec_nb ∧ (q_flush q).rec_sz = q.rec_sz ∧
    (q_flush q).impl = q.impl ∧ (q_flush q).ovw = q.ovw ∧
    (q_flush q).init = q.init ∧ (q_flush q).queue = q.queue ∧
    (q_flush q).queue_sz = q.queue_sz :=
  ⟨rfl, rfl, rfl, rfl, rfl, rfl, rfl, rfl, rfl, rfl⟩

/-- C7 (code evaluated at the failing input): `q_init` with a failed
allocation (`malloc` returning NULL, modelled by `alloc = none`) still
sets `init` to `QUEUE_INITIALIZED`, so `q_isInitialized` reports `true`
— the ring is NOT left not-ready, contradicting the claim (and the
header's own `q_init` doc, which promises NULL on allocation failure;
the cQueue.c `q_init` returns void and never checks `malloc`). -/
theorem c7_alloc_failure_marks_ready :
    q_isInitialized (q_init baseQ 4 3 FIFO false none) = true := rfl

/-- C9 (code evaluated at the failing input): `q_init` never assigns the
`queue_sz` field, so after a successful create on a struct whose stale
`queue_sz` was 7, `q_sizeof` returns 7 and not
`capacity × record_size = 12`. -/
theorem c9_sizeof_stale :
    q_sizeof (q_init staleSzQ 4 3 FIFO false (some (fun _ => 0))) = 7 ∧
    (7 : Nat) ≠ 4 * 3 :=
  ⟨rfl, by decide⟩

/-- C10: with an `impl` value that is neither `FIFO` nor `LIFO`,
`q_pop`, `q_peek` and `q_drop` return `false` with no bytes copied and
the state unchanged, even when the ring is non-empty. -/
theorem c10_invalid_mode_rejects (q : Queue_t)
    (h1 : q.impl ≠ FIFO) (h2 : q.impl ≠ LIFO) :
    q_pop q = (false, none, q) ∧ q_peek q = (false, none, q) ∧
    q_drop q = (false, q) := by
  refine ⟨?_, ?_, ?_⟩ <;>
    simp [q_pop, q_peek, q_drop, beq_iff_eq, h1, h2]

/-- Witness for C10 at a concrete non-empty ring with `impl = 2`. -/
theorem c10_invalid_mode_rejects_witness :
    badModeQ.impl ≠ FIFO ∧ badModeQ.impl ≠ LIFO ∧ q_isEmpty badModeQ = false ∧
    q_pop badModeQ = (false, none, badModeQ) ∧
    q_peek badModeQ = (false, none, badModeQ) ∧
    q_drop badModeQ = (false, badModeQ) := by
  have h := c10_invalid_mode_rejects badModeQ (by decide) (by decide)
  exact ⟨by decide, by decide, rfl, h.1, h.2.1, h.2.2⟩

/-- C8 counterexample: `notReadyQ` has `init = 0` (not ready) yet holds
one record, and `q_drop` on it returns `true` and decrements `cnt` —
no operation of cQueue.c checks the `init` flag, so the claimed
`NotInitialized` failure does not happen. -/
theorem c8_counterexample :
    q_isInitialized notReadyQ = false ∧ notReadyQ.cnt = 1 ∧
    (q_drop notReadyQ).1 = true ∧ (q_drop notReadyQ).2.cnt = 0 :=
  ⟨rfl, rfl, rfl, rfl⟩

/-- C8 (amended): the operations other than create never consult the
`init` flag: on a ring with any `init` value they return the same
statuses and bytes and the same state (apart from carrying that `init`
value along) as on the corresponding ready ring. -/
theorem c8_ops_ignore_ready_flag (q : Queue_t) (v : Nat) (r : List Nat) :
    (q_push { q with init := v } r).1 = (q_push q r).1 ∧
    (q_push { q with init := v } r).2 = { (q_push q r).2 with init := v } ∧
    (q_pop { q with init := v }).1 = (q_pop q).1 ∧
    (q_pop { q with init := v }).2.1 = (q_pop q).2.1 ∧
    (q_pop { q with init := v }).2.2 = { (q_pop q).2.2 with init := v } ∧
    (q_peek { q with init := v }).1 = (q_peek q).1 ∧
    (q_peek { q with init := v }).2.1 = (q_peek q).2.1 ∧
    (q_peek { q with init := v }).2.2 = { (q_peek q).2.2 with init := v } ∧
    (q_drop { q with init := v }).1 = (q_drop q).1 ∧
    (q_drop { q with init := v }).2 = { (q_drop q).2 with init := v } ∧
    q_flush { q with init := v } = { q_flush q with init := v } := by
  obtain ⟨impl, ovw, rec_nb, rec_sz, queue_sz, queue, i, o, c, ini⟩ := q
  refine ⟨?_, ?_, ?_, ?_, ?_, ?_, ?_, ?_, ?_, ?_, ?_⟩ <;>
    simp only [q_push, q_pop, q_peek, q_drop, q_flush, q_isFull, q_isEmpty] <;>
    (try (split_ifs <;> rfl))


/-- Helper: `q_push` on a non-full ring (with `cnt + 1` in `uint16_t`
range) writes the record at slot `in`, advances `in` and counts it. -/
theorem q_push_not_full (q : Queue_t) (r : List Nat)
    (hc : q.cnt ≠ q.rec_nb) (hlt : q.cnt + 1 < 65536) :
    q_push q r =
      (true,
        { q with
          queue := writeBytesN q.queue (q.rec_sz * q.in_) q.rec_sz r,
          in_ := inc_idx q.in_ q.rec_nb 0,
          cnt := q.cnt + 1 }) := by
  have hfull : (q.cnt == q.rec_nb) = false := by
    simp [hc]
  simp [q_push, q_isFull, hfull, Nat.mod_eq_of_lt hlt]

/-- Helper: `q_push` on a full ring with overwrite enabled, FIFO mode. -/
theorem q_push_full_ovw_fifo (q : Queue_t) (r : List Nat)
    (hm : q.impl = FIFO) (hovw : q.ovw = true) (hc : q.cnt = q.rec_nb) :
    q_push q r =
      (true,
        { q with
          queue := writeBytesN q.queue (q.rec_sz * q.in_) q.rec_sz r,
          in_ := inc_idx q.in_ q.rec_nb 0,
          out := inc_idx q.out q.rec_nb 0 }) := by
  simp [q_push, q_isFull, hm, hovw, hc]

/-- Helper: `q_push` on a full ring with overwrite enabled, mode other
than FIFO (LIFO included): `out` is untouched. -/
theorem q_push_full_ovw_not_fifo (q : Queue_t) (r : List Nat)
    (hm : q.impl ≠ FIFO) (hovw : q.ovw = true) (hc : q.cnt = q.rec_nb) :
    q_push q r =
      (true,
        { q with
          queue := writeBytesN q.queue (q.rec_sz * q.in_) q.rec_sz r,
          in_ := inc_idx q.in_ q.rec_nb 0 }) := by
  have hf : (q.impl == FIFO) = false := by
    simp [beq_iff_eq, hm]
  simp [q_push, q_isFull, hf, hovw, hc]

/-- Helper: `q_pop` on a non-empty FIFO ring reads slot `out`, then
advances `out` and decrements `cnt`. -/
theorem q_pop_fifo (q : Queue_t) (hm : q.impl = FIFO) (hc : q.cnt ≠ 0) :
    q_pop q =
      (true, some (readBytes q.queue (q.rec_sz * q.out) q.rec_sz),
        { q with out := inc_idx q.out q.rec_nb 0, cnt := q.cnt - 1 }) := by
  have he : (q.cnt == 0) = false := by
    simp [hc]
  simp [q_pop, q_isEmpty, he, hm]

/-- Helper: `q_pop` on a non-empty LIFO ring retreats `in` and reads the
new slot `in`, decrementing `cnt`. -/
theorem q_pop_lifo (q : Queue_t) (hm : q.impl = LIFO) (hc : q.cnt ≠ 0) :
    q_pop q =
      (true,
        some (readBytes q.queue (q.rec_sz * dec_idx q.in_ q.rec_nb 0) q.rec_sz),
        { q with in_ := dec_idx q.in_ q.rec_nb 0, cnt := q.cnt - 1 }) := by
  have he : (q.cnt == 0) = false := by
    simp [hc]
  have hf : (q.impl == FIFO) = false := by
    simp [beq_iff_eq, hm, LIFO, FIFO]
  simp [q_pop, q_isEmpty, he, hf, hm, LIFO, FIFO]

/-- C3: on a ready full ring with overwrite enabled, `q_push` succeeds,
`cnt` stays at capacity, the record is written at slot `in` and `in` is
advanced with wraparound; in FIFO mode `out` is also advanced with
wraparound, and in LIFO mode `out` is untouched.  In FIFO mode, for a
well-formed full ring (`in = out < capacity`, capacity ≥ 2), the
subsequent `q_pop` returns the pre-push bytes of slot
`inc_idx out` — the second-oldest record, not the evicted oldest one.
Proven for every ring with `ovw = true` and `cnt = rec_nb`, ready or
not. -/
theorem c3_push_overwrite_full (q : Queue_t) (r : List Nat)
    (hovw : q.ovw = true) (hfull : q.cnt = q.rec_nb) :
    (q_push q r).1 = true ∧
    (q_push q r).2.cnt = q.rec_nb ∧
    (q_push q r).2.queue = writeBytesN q.queue (q.rec_sz * q.in_) q.rec_sz r ∧
    (q_push q r).2.in_ = inc_idx q.in_ q.rec_nb 0 ∧
    (q.impl = FIFO → (q_push q r).2.out = inc_idx q.out q.rec_nb 0) ∧
    (q.impl = LIFO → (q_push q r).2.out = q.out) ∧
    (q.impl = FIFO → q.in_ = q.out → 2 ≤ q.rec_nb → q.out < q.rec_nb →
      (q_pop (q_push q r).2).2.1 =
        some (readBytes q.queue (q.rec_sz * inc_idx q.out q.rec_nb 0) q.rec_sz)) := by
  by_cases hmode : q.impl = FIFO
  · have hpush := q_push_full_ovw_fifo q r hmode hovw hfull
    refine ⟨by rw [hpush], by rw [hpush]; exact hfull, by rw [hpush],
      by rw [hpush], fun _ => by rw [hpush], fun hL => ?_, fun _ hio h2 hout => ?_⟩
    · exact absurd (hmode.symm.trans hL) (by simp [FIFO, LIFO])
    · have hcnt : q.cnt ≠ 0 := by omega
      have h22 : (q_push q r).2 =
          { q with
            queue := writeBytesN q.queue (q.rec_sz * q.in_) q.rec_sz r,
            in_ := inc_idx q.in_ q.rec_nb 0,
            out := inc_idx q.out q.rec_nb 0 } := by
        rw [hpush]
      have hp := q_pop_fifo
        { q with
          queue := writeBytesN q.queue (q.rec_sz * q.in_) q.rec_sz r,
          in_ := inc_idx q.in_ q.rec_nb 0,
          out := inc_idx q.out q.rec_nb 0 } hmode hcnt
      rw [h22, hp]
      have hdis : q.rec_sz * inc_idx q.out q.rec_nb 0 + q.rec_sz ≤ q.rec_sz * q.in_
          ∨ q.rec_sz * q.in_ + q.rec_sz ≤ q.rec_sz * inc_idx q.out q.rec_nb 0 := by
        unfold inc_idx
        rcases Nat.lt_or_ge q.out (q.rec_nb - 1) with hlt | hge
        · right
          rw [if_pos hlt, hio]
          calc q.rec_sz * q.out + q.rec_sz = q.rec_sz * (q.out + 1) := by ring
            _ ≤ q.rec_sz * (q.out + 1) := le_refl _
        · left
          have hn : ¬ q.out < q.rec_nb - 1 := by omega
          rw [if_neg hn]
          have h1 : 1 ≤ q.out := by omega
          calc q.rec_sz * 0 + q.rec_sz = q.rec_sz * 1 := by ring
            _ ≤ q.rec_sz * q.out := Nat.mul_le_mul_left _ h1
            _ = q.rec_sz * q.in_ := by rw [hio]
      exact congrArg some (readBytes_writeBytesN_of_disjoint q.queue
        (q.rec_sz * q.in_) q.rec_sz r
        (q.rec_sz * inc_idx q.out q.rec_nb 0) q.rec_sz hdis)
  · have hpush := q_push_full_ovw_not_fifo q r hmode hovw hfull
    exact ⟨by rw [hpush], by rw [hpush]; exact hfull, by rw [hpush],
      by rw [hpush], fun h => absurd h hmode, fun _ => by rw [hpush],
      fun h => absurd h hmode⟩

/-- Witness for C3 at `ovwQ` (full FIFO overwrite ring, slots holding
bytes 1 = oldest and 2 = second-oldest): the push succeeds keeping
`cnt = 2`, advances both cursors, and the subsequent pop returns byte 2,
the second-oldest record. -/
theorem c3_push_overwrite_full_witness :
    ovwQ.ovw = true ∧ ovwQ.cnt = ovwQ.rec_nb ∧
    (q_push ovwQ [9]).1 = true ∧
    (q_push ovwQ [9]).2.cnt = ovwQ.rec_nb ∧
    (q_push ovwQ [9]).2.out = inc_idx ovwQ.out ovwQ.rec_nb 0 ∧
    (q_pop (q_push ovwQ [9]).2).2.1 =
      some (readBytes ovwQ.queue (ovwQ.rec_sz * inc_idx ovwQ.out ovwQ.rec_nb 0)
        ovwQ.rec_sz) ∧
    (q_pop (q_push ovwQ [9]).2).2.1 = some [2] := by
  have h := c3_push_overwrite_full ovwQ [9] rfl rfl
  exact ⟨rfl, rfl, h.1, h.2.1, h.2.2.2.2.1 rfl,
    h.2.2.2.2.2.2 rfl rfl (by decide) (by decide), rfl⟩

/-- Helper: every state reachable from a positive-capacity `q_init` has
`cnt ≤ rec_nb` and a `uint16_t`-ranged capacity. -/
theorem reachable_bounds (q : Queue_t) (h : Reachable q) :
    q.cnt ≤ q.rec_nb ∧ q.rec_nb < 65536 := by
  induction h with
  | init q0 size_rec nb_recs ty overwrite alloc hpos hlt =>
      constructor
      · show (q_init q0 size_rec nb_recs ty overwrite alloc).cnt ≤ _
        simp [q_init, q_kill, q_clean, q_flush]
      · show (q_init q0 size_rec nb_recs ty overwrite alloc).rec_nb < 65536
        simp only [q_init, q_kill, q_clean, q_flush]
        split <;> simpa using hlt
  | push q0 r _ ih =>
      obtain ⟨h1, h2⟩ := ih
      simp only [q_push, q_isFull]
      split_ifs
      all_goals simp_all
      all_goals omega
  | pop q0 _ ih =>
      obtain ⟨h1, h2⟩ := ih
      simp only [q_pop]
      split_ifs <;> simp_all <;> omega
  | peek q0 _ ih =>
      rw [q_peek_state]
      exact ih
  | drop q0 _ ih =>
      obtain ⟨h1, h2⟩ := ih
      simp only [q_drop]
      split_ifs <;> simp_all <;> omega
  | flush q0 _ ih =>
      obtain ⟨h1, h2⟩ := ih
      simp only [q_flush]
      exact ⟨Nat.zero_le _, h2⟩

/-- C6: in every state reachable from a create with positive capacity,
`0 ≤ cnt ≤ rec_nb` holds (each operation preserves it), `q_isEmpty`
returns `true` exactly when `cnt = 0`, and `q_isFull` returns `true`
exactly when `cnt = rec_nb`. -/
theorem c6_count_invariant (q : Queue_t) (h : Reachable q) :
    0 ≤ q.cnt ∧ q.cnt ≤ q.rec_nb ∧
    (q_isEmpty q = true ↔ q.cnt = 0) ∧
    (q_isFull q = true ↔ q.cnt = q.rec_nb) := by
  refine ⟨Nat.zero_le _, (reachable_bounds q h).1, ?_, ?_⟩ <;>
    · simp only [q_isEmpty, q_isFull]
      split_ifs with hc
      all_goals simp_all

/-- Witness for C6 at the state created by a concrete `q_init` with
capacity 2 and record size 1. -/
theorem c6_count_invariant_witness :
    0 ≤ (q_init baseQ 1 2 FIFO false (some (fun _ => 0))).cnt ∧
    (q_init baseQ 1 2 FIFO false (some (fun _ => 0))).cnt ≤
      (q_init baseQ 1 2 FIFO false (some (fun _ => 0))).rec_nb ∧
    (q_isEmpty (q_init baseQ 1 2 FIFO false (some (fun _ => 0))) = true ↔
      (q_init baseQ 1 2 FIFO false (some (fun _ => 0))).cnt = 0) ∧
    (q_isFull (q_init baseQ 1 2 FIFO false (some (fun _ => 0))) = true ↔
      (q_init baseQ 1 2 FIFO false (some (fun _ => 0))).cnt =
        (q_init baseQ 1 2 FIFO false (some (fun _ => 0))).rec_nb) :=
  c6_count_invariant _
    (Reachable.init baseQ 1 2 FIFO false (some (fun _ => 0))
      (by decide) (by decide))

/-- Helper: mapping `getD` over `range l.length` reconstructs `l`. -/
theorem map_getD_range (l : List Nat) :
    (List.range l.length).map (fun i => l.getD i 0) = l := by
  refine List.ext_getElem (by simp) ?_
  intro i h1 h2
  simp only [List.getElem_map, List.getElem_range]
  exact List.getD_eq_getElem l 0 h2

/-- Helper: reading back exactly the written range returns the source
record when its length matches. -/
theorem readBytes_writeBytesN_self (buf : Nat → Nat) (off : Nat)
    (src : List Nat) :
    readBytes (writeBytesN buf off src.length src) off src.length = src := by
  unfold readBytes writeBytesN
  calc (List.range src.length).map
        (fun i => if off ≤ off + i ∧ off + i < off + src.length
          then src.getD (off + i - off) 0 else buf (off + i))
      = (List.range src.length).map (fun i => src.getD i 0) := by
        refine List.map_congr_left ?_
        intro i hi
        rw [List.mem_range] at hi
        have hc : off ≤ off + i ∧ off + i < off + src.length := by omega
        rw [if_pos hc]
        congr 1
        omega
    _ = src := map_getD_range src

/-- Helper: writes of `storeSeq` into slots `≥ j` leave any slot `k < j`
unchanged. -/
theorem storeSeq_read_lt (sz : Nat) :
    ∀ (recs : List (List Nat)) (buf : Nat → Nat) (j k : Nat), k < j →
      readBytes (storeSeq buf sz j recs) (sz * k) sz =
        readBytes buf (sz * k) sz := by
  intro recs
  induction recs with
  | nil => intro buf j k _; rfl
  | cons r rs ih =>
      intro buf j k hk
      show readBytes (storeSeq (writeBytesN buf (sz * j) sz r) sz (j + 1) rs)
        (sz * k) sz = _
      rw [ih (writeBytesN buf (sz * j) sz r) (j + 1) k (by omega)]
      refine readBytes_writeBytesN_of_disjoint buf (sz * j) sz r (sz * k) sz ?_
      left
      calc sz * k + sz = sz * (k + 1) := by ring
        _ ≤ sz * j := Nat.mul_le_mul_left _ (by omega)

/-- Helper: after `storeSeq` wrote `recs` into slots `j, j+1, …`, reading
slot `j + i` returns the `i`-th record. -/
theorem storeSeq_read (sz : Nat) :
    ∀ (recs : List (List Nat)) (i j : Nat) (buf : Nat → Nat),
      i < recs.length → (∀ r ∈ recs, r.length = sz) →
      readBytes (storeSeq buf sz j recs) (sz * (j + i)) sz = recs.getD i [] := by
  intro recs
  induction recs with
  | nil => intro i j buf h _; simp at h
  | cons r rs ih =>
      intro i j buf hi hlen
      have hr : r.length = sz := hlen r (by simp)
      match i with
      | 0 =>
          show readBytes (storeSeq (writeBytesN buf (sz * j) sz r) sz (j + 1) rs)
            (sz * (j + 0)) sz = r
          rw [storeSeq_read_lt sz rs (writeBytesN buf (sz * j) sz r) (j + 1) (j + 0)
            (by omega)]
          have : sz * (j + 0) = sz * j := by ring_nf
          rw [this, ← hr]
          exact readBytes_writeBytesN_self buf (r.length * j) r
      | Nat.succ i' =>
          show readBytes (storeSeq (writeBytesN buf (sz * j) sz r) sz (j + 1) rs)
            (sz * (j + (i' + 1))) sz = rs.getD i' []
          have harg : j + (i' + 1) = (j + 1) + i' := by omega
          rw [harg]
          exact ih i' (j + 1) (writeBytesN buf (sz * j) sz r)
            (by simpa using hi) (fun x hx => hlen x (by simp [hx]))

/-- Helper: a run of `recs.length` pushes into a ring with room for all
of them (cursor and count within bounds) writes the records into
consecutive slots starting at `in`, moves `in` forward by `recs.length`
(wrapping at most once, at the very end) and adds `recs.length` to
`cnt`. -/
theorem pushAll_state :
    ∀ (recs : List (List Nat)) (q : Queue_t),
      q.in_ < q.rec_nb → q.in_ + recs.length ≤ q.rec_nb →
      q.cnt + recs.length ≤ q.rec_nb → q.rec_nb < 65536 →
      pushAll q recs =
        { q with
          queue := storeSeq q.queue q.rec_sz q.in_ recs,
          in_ := (q.in_ + recs.length) % q.rec_nb,
          cnt := q.cnt + recs.length } := by
  intro recs
  induction recs with
  | nil =>
      intro q hin _ _ _
      simp only [pushAll, List.foldl_nil, storeSeq, List.length_nil,
        Nat.add_zero, Nat.mod_eq_of_lt hin]
  | cons r rs ih =>
      intro q hin hinN hcnt h16
      simp only [List.length_cons] at hinN hcnt
      have hstep : pushAll q (r :: rs) = pushAll (q_push q r).2 rs := by
        simp [pushAll]
      have hpush := q_push_not_full q r (by omega) (by omega)
      rcases Nat.lt_or_ge (q.in_ + 1) q.rec_nb with hlt | hge
      · have hinc : inc_idx q.in_ q.rec_nb 0 = q.in_ + 1 := by
          unfold inc_idx
          rw [if_pos (by omega)]
        have h2 : (q_push q r).2 =
            { q with
              queue := writeBytesN q.queue (q.rec_sz * q.in_) q.rec_sz r,
              in_ := q.in_ + 1, cnt := q.cnt + 1 } := by
          rw [hpush, hinc]
        rw [hstep, h2, ih
          { q with
            queue := writeBytesN q.queue (q.rec_sz * q.in_) q.rec_sz r,
            in_ := q.in_ + 1, cnt := q.cnt + 1 }
          (by show q.in_ + 1 < q.rec_nb; omega)
          (by show q.in_ + 1 + rs.length ≤ q.rec_nb; omega)
          (by show q.cnt + 1 + rs.length ≤ q.rec_nb; omega)
          (by show q.rec_nb < 65536; omega)]
        apply Queue_t.ext <;> try rfl
        · show (q.in_ + 1 + rs.length) % q.rec_nb =
            (q.in_ + (rs.length + 1)) % q.rec_nb
          congr 1
          omega
        · show q.cnt + 1 + rs.length = q.cnt + (rs.length + 1)
          omega
      · have hrs : rs = [] := List.length_eq_zero.mp (by omega)
        subst hrs
        have hinc : inc_idx q.in_ q.rec_nb 0 = 0 := by
          unfold inc_idx
          rw [if_neg (by omega)]
        have h2 : (q_push q r).2 =
            { q with
              queue := writeBytesN q.queue (q.rec_sz * q.in_) q.rec_sz r,
              in_ := 0, cnt := q.cnt + 1 } := by
          rw [hpush, hinc]
        rw [hstep, h2]
        simp only [pushAll, List.foldl_nil]
        apply Queue_t.ext <;> try rfl
        · show (0 : Nat) = (q.in_ + ([r] : List (List Nat)).length) % q.rec_nb
          have he : q.in_ + ([r] : List (List Nat)).length = q.rec_nb := by
            simp only [List.length_cons, List.length_nil]
            omega
          rw [he, Nat.mod_self]

/-- Helper: one unfolding step of `popN`. -/
theorem popN_succ (q : Queue_t) (n : Nat) :
    popN q (n + 1) =
      ((q_pop q).2.1 :: (popN (q_pop q).2.2 n).1, (popN (q_pop q).2.2 n).2) :=
  rfl

/-- Helper: `m` FIFO pops that stay within the high end of the ring
(no wrap needed before the last one) return the records of slots
`out, out+1, …, out+m-1` in order. -/
theorem popN_fifo_out :
    ∀ (m : Nat) (q : Queue_t), q.impl = FIFO → m ≤ q.cnt →
      q.out + m ≤ q.rec_nb →
      (popN q m).1 = (List.range m).map
        (fun i => some (readBytes q.queue (q.rec_sz * (q.out + i)) q.rec_sz)) := by
  intro m
  induction m with
  | zero => intro q _ _ _; rfl
  | succ m ih =>
      intro q hm hcnt hout
      have hc : q.cnt ≠ 0 := by omega
      have hp := q_pop_fifo q hm hc
      have h1 : (popN q (m + 1)).1 = (q_pop q).2.1 :: (popN (q_pop q).2.2 m).1 := by
        rw [popN_succ]
      have h21 : (q_pop q).2.1 =
          some (readBytes q.queue (q.rec_sz * q.out) q.rec_sz) := by
        rw [hp]
      have h22 : (q_pop q).2.2 =
          { q with out := inc_idx q.out q.rec_nb 0, cnt := q.cnt - 1 } := by
        rw [hp]
      rw [h1, h21, h22, List.range_succ_eq_map, List.map_cons, List.map_map]
      congr 1
      rcases Nat.lt_or_ge (q.out + 1) q.rec_nb with hlt | hge
      · have hinc : inc_idx q.out q.rec_nb 0 = q.out + 1 := by
          unfold inc_idx
          rw [if_pos (by omega)]
        rw [ih { q with out := inc_idx q.out q.rec_nb 0, cnt := q.cnt - 1 }
          (by show q.impl = FIFO; exact hm)
          (by show m ≤ q.cnt - 1; omega)
          (by show inc_idx q.out q.rec_nb 0 + m ≤ q.rec_nb; rw [hinc]; omega)]
        refine List.map_congr_left ?_
        intro i hi
        simp only [Function.comp_apply]
        congr 2
        rw [hinc]
        congr 1
        omega
      · have hm0 : m = 0 := by omega
        subst hm0
        rfl

/-- Helper: `m` LIFO pops with `in` at least `m` (no wrap needed) return
the records of slots `in-1, in-2, …, in-m` in that order. -/
theorem popN_lifo_out :
    ∀ (m : Nat) (q : Queue_t), q.impl = LIFO → m ≤ q.cnt → m ≤ q.in_ →
      (popN q m).1 = (List.range m).map
        (fun i => some (readBytes q.queue (q.rec_sz * (q.in_ - 1 - i)) q.rec_sz)) := by
  intro m
  induction m with
  | zero => intro q _ _ _; rfl
  | succ m ih =>
      intro q hm hcnt hin
      have hc : q.cnt ≠ 0 := by omega
      have hp := q_pop_lifo q hm hc
      have hdec : dec_idx q.in_ q.rec_nb 0 = q.in_ - 1 := by
        unfold dec_idx
        rw [if_pos (by omega)]
      have h1 : (popN q (m + 1)).1 = (q_pop q).2.1 :: (popN (q_pop q).2.2 m).1 := by
        rw [popN_succ]
      have h21 : (q_pop q).2.1 =
          some (readBytes q.queue (q.rec_sz * (q.in_ - 1)) q.rec_sz) := by
        rw [hp, hdec]
      have h22 : (q_pop q).2.2 =
          { q with in_ := q.in_ - 1, cnt := q.cnt - 1 } := by
        rw [hp, hdec]
      rw [h1, h21, h22, List.range_succ_eq_map, List.map_cons, List.map_map]
      congr 1
      rw [ih { q with in_ := q.in_ - 1, cnt := q.cnt - 1 }
        (by show q.impl = LIFO; exact hm)
        (by show m ≤ q.cnt - 1; omega)
        (by show m ≤ q.in_ - 1; omega)]
      refine List.map_congr_left ?_
      intro i hi
      simp only [Function.comp_apply]
      congr 2
      congr 1
      omega

/-- Helper: reconstructing a list of records from `getD` over its index
range, under `some`. -/
theorem map_some_getD_range (l : List (List Nat)) :
    (List.range l.length).map (fun i => some (l.getD i [])) = l.map some := by
  refine List.ext_getElem (by simp) ?_
  intro i h1 h2
  simp only [List.getElem_map, List.getElem_range]
  rw [List.getD_eq_getElem l [] (by simpa using h1)]

/-- Helper: reading a list of records backwards from `getD` over its
index range, under `some`, yields its reverse. -/
theorem map_some_getD_range_rev (l : List (List Nat)) :
    (List.range l.length).map (fun i => some (l.getD (l.length - 1 - i) [])) =
      l.reverse.map some := by
  refine List.ext_getElem (by simp) ?_
  intro i h1 h2
  have hi : i < l.length := by simpa using h1
  simp only [List.getElem_map, List.getElem_range, List.getElem_reverse]
  rw [List.getD_eq_getElem l [] (by omega)]

/-- Helper: `m+1` LIFO pops starting with `in = 0` on a ring whose
capacity is in `uint16_t` range: the first pop wraps the cursor back to
slot `capacity - 1`, the rest walk down, so the pops read slots
`capacity-1, capacity-2, …, capacity-1-m`. -/
theorem popN_lifo_wrap_out (m : Nat) (q : Queue_t)
    (hm : q.impl = LIFO) (hin : q.in_ = 0) (hcnt : m + 1 ≤ q.cnt)
    (hcap : 0 < q.rec_nb) (hcap16 : q.rec_nb < 65536)
    (hrm : m ≤ q.rec_nb - 1) :
    (popN q (m + 1)).1 = (List.range (m + 1)).map
      (fun i => some (readBytes q.queue (q.rec_sz * (q.rec_nb - 1 - i)) q.rec_sz)) := by
  have hc : q.cnt ≠ 0 := by omega
  have hp := q_pop_lifo q hm hc
  have hdec : dec_idx q.in_ q.rec_nb 0 = q.rec_nb - 1 := by
    unfold dec_idx
    rw [hin, if_neg (by omega)]
    omega
  have h1 : (popN q (m + 1)).1 = (q_pop q).2.1 :: (popN (q_pop q).2.2 m).1 := by
    rw [popN_succ]
  have h21 : (q_pop q).2.1 =
      some (readBytes q.queue (q.rec_sz * (q.rec_nb - 1)) q.rec_sz) := by
    rw [hp, hdec]
  have h22 : (q_pop q).2.2 =
      { q with in_ := q.rec_nb - 1, cnt := q.cnt - 1 } := by
    rw [hp, hdec]
  rw [h1, h21, h22, List.range_succ_eq_map, List.map_cons, List.map_map]
  congr 1
  rw [popN_lifo_out m { q with in_ := q.rec_nb - 1, cnt := q.cnt - 1 }
    (by show q.impl = LIFO; exact hm)
    (by show m ≤ q.cnt - 1; omega)
    (by show m ≤ q.rec_nb - 1; omega)]
  refine List.map_congr_left ?_
  intro i hi
  simp only [Function.comp_apply]
  congr 2
  congr 1
  omega

/-- C1 (amended): starting from a freshly flushed ready ring (as
produced by `q_init` or `q_flush`: empty, both cursors 0), pushing
`N ≤ capacity` records of `rec_sz` bytes each and then popping `N`
times returns exactly the original records — in push order in FIFO
mode, and in exact reverse order in LIFO mode.  (The unamended claim,
quantified over arbitrary ready rings, fails on non-empty FIFO rings —
see the counterexample.) -/
theorem c1_roundtrip (q : Queue_t) (recs : List (List Nat))
    (hcap : 0 < q.rec_nb) (hcap16 : q.rec_nb < 65536)
    (hN : recs.length ≤ q.rec_nb)
    (hlen : ∀ r ∈ recs, r.length = q.rec_sz) :
    (q.impl = FIFO →
      (popN (pushAll (q_flush q) recs) recs.length).1 = recs.map some) ∧
    (q.impl = LIFO →
      (popN (pushAll (q_flush q) recs) recs.length).1 = recs.reverse.map some) := by
  have hS : pushAll (q_flush q) recs =
      { q with
        queue := storeSeq q.queue q.rec_sz 0 recs,
        in_ := (0 + recs.length) % q.rec_nb,
        out := 0,
        cnt := 0 + recs.length } :=
    pushAll_state recs (q_flush q)
      (by show (0 : Nat) < q.rec_nb; exact hcap)
      (by show 0 + recs.length ≤ q.rec_nb; omega)
      (by show 0 + recs.length ≤ q.rec_nb; omega)
      (by show q.rec_nb < 65536; exact hcap16)
  constructor
  · intro hFIFO
    rw [hS, popN_fifo_out recs.length
      { q with
        queue := storeSeq q.queue q.rec_sz 0 recs,
        in_ := (0 + recs.length) % q.rec_nb,
        out := 0,
        cnt := 0 + recs.length }
      (by show q.impl = FIFO; exact hFIFO)
      (by show recs.length ≤ 0 + recs.length; omega)
      (by show 0 + recs.length ≤ q.rec_nb; omega),
      ← map_some_getD_range recs]
    refine List.map_congr_left ?_
    intro i hi
    rw [List.mem_range] at hi
    exact congrArg some (storeSeq_read q.rec_sz recs i 0 q.queue hi hlen)
  · intro hLIFO
    by_cases h0 : recs.length = 0
    · have hnil : recs = [] := List.length_eq_zero.mp h0
      subst hnil
      rfl
    rcases Nat.lt_or_ge recs.length q.rec_nb with hlt | hge
    · -- no wrap: `in` ends at `recs.length < capacity`
      have hS' : pushAll (q_flush q) recs =
          { q with
            queue := storeSeq q.queue q.rec_sz 0 recs,
            in_ := recs.length,
            out := 0,
            cnt := 0 + recs.length } := by
        rw [hS]
        apply Queue_t.ext <;> try rfl
        show (0 + recs.length) % q.rec_nb = recs.length
        rw [Nat.zero_add]
        exact Nat.mod_eq_of_lt hlt
      rw [hS', popN_lifo_out recs.length
        { q with
          queue := storeSeq q.queue q.rec_sz 0 recs,
          in_ := recs.length,
          out := 0,
          cnt := 0 + recs.length }
        (by show q.impl = LIFO; exact hLIFO)
        (by show recs.length ≤ 0 + recs.length; omega)
        (by show recs.length ≤ recs.length; omega),
        ← map_some_getD_range_rev recs]
      refine List.map_congr_left ?_
      intro i hi
      rw [List.mem_range] at hi
      have hsr := storeSeq_read q.rec_sz recs (recs.length - 1 - i) 0 q.queue
        (by omega) hlen
      rw [Nat.zero_add] at hsr
      exact congrArg some hsr
    · -- wrap: `recs.length = capacity`, `in` ended at 0 and the first
      -- pop retreats to slot `capacity - 1`
      have hn : recs.length = q.rec_nb := by omega
      obtain ⟨n', hn'⟩ : ∃ n', recs.length = n' + 1 :=
        ⟨recs.length - 1, by omega⟩
      have hS' : pushAll (q_flush q) recs =
          { q with
            queue := storeSeq q.queue q.rec_sz 0 recs,
            in_ := 0,
            out := 0,
            cnt := 0 + recs.length } := by
        rw [hS]
        apply Queue_t.ext <;> try rfl
        show (0 + recs.length) % q.rec_nb = 0
        rw [Nat.zero_add, hn, Nat.mod_self]
      rw [hn'] at hS'
      have hw := popN_lifo_wrap_out n'
        { q with
          queue := storeSeq q.queue q.rec_sz 0 recs,
          in_ := 0,
          out := 0,
          cnt := 0 + (n' + 1) }
        (by show q.impl = LIFO; exact hLIFO)
        (by show (0 : Nat) = 0; rfl)
        (by show n' + 1 ≤ 0 + (n' + 1); omega)
        (by show 0 < q.rec_nb; exact hcap)
        (by show q.rec_nb < 65536; exact hcap16)
        (by show n' ≤ q.rec_nb - 1; omega)
      rw [hS', hn', hw, ← map_some_getD_range_rev recs, hn']
      refine List.map_congr_left ?_
      intro i hi
      rw [List.mem_range] at hi
      have hsr := storeSeq_read q.rec_sz recs (q.rec_nb - 1 - i) 0 q.queue
        (by omega) hlen
      rw [Nat.zero_add] at hsr
      show some (readBytes (storeSeq q.queue q.rec_sz 0 recs)
        (q.rec_sz * (q.rec_nb - 1 - i)) q.rec_sz) =
        some (recs.getD (n' + 1 - 1 - i) [])
      have hidx : q.rec_nb - 1 - i = n' + 1 - 1 - i := by omega
      rw [hsr, hidx]

/-- C1 counterexample: `c1CtrQ` is a ready FIFO ring (capacity 2) that
already holds one record (byte 7); pushing `N = 1 ≤ capacity` record
`[9]` and popping once returns `[some [7]]`, the pre-existing record,
not the pushed `[9]` — so the round trip does not hold for every ready
ring, only for empty (freshly flushed) ones. -/
theorem c1_roundtrip_counterexample :
    q_isInitialized c1CtrQ = true ∧ c1CtrQ.impl = FIFO ∧
    (1 : Nat) ≤ c1CtrQ.rec_nb ∧
    (popN (pushAll c1CtrQ [[9]]) 1).1 = [some [7]] ∧
    (popN (pushAll c1CtrQ [[9]]) 1).1 ≠ ([[9]] : List (List Nat)).map some := by
  refine ⟨by decide, by decide, by decide, by decide, by decide⟩

/-- Witness for C1 at concrete flushed rings: capacity 3, record size 2,
pushing `[[1,2],[3,4]]`; the FIFO ring pops them back in order and the
LIFO ring pops them back reversed. -/
theorem c1_roundtrip_witness :
    0 < rtQ.rec_nb ∧ rtQ.rec_nb < 65536 ∧
    ([[1, 2], [3, 4]] : List (List Nat)).length ≤ rtQ.rec_nb ∧
    rtQ.impl = FIFO ∧ rtQL.impl = LIFO ∧
    (popN (pushAll (q_flush rtQ) [[1, 2], [3, 4]]) 2).1 =
      [some [1, 2], some [3, 4]] ∧
    (popN (pushAll (q_flush rtQL) [[1, 2], [3, 4]]) 2).1 =
      [some [3, 4], some [1, 2]] := by
  have hF := (c1_roundtrip rtQ [[1, 2], [3, 4]]
    (by decide) (by decide) (by decide) (by decide)).1 rfl
  have hL := (c1_roundtrip rtQL [[1, 2], [3, 4]]
    (by decide) (by decide) (by decide) (by decide)).2 rfl
  exact ⟨by decide, by decide, by decide, rfl, rfl, hF, hL⟩
